import Mathlib

/-!
Verification of the LichenApp ingestion/aggregation core against its
natural-language specification.  Each definition is a shallow embedding of a
Python function from the repository; theorem names follow the claims.

Conventions of the embedding:
* machine state touched by a function (the daily-steps row for one
  (user, localDate, source) key, the per-user UUID index) is passed
  explicitly;
* the relational / blob stores are modelled by the values written to them;
* timestamps are integers (minutes or seconds since an epoch), and an IANA
  timezone is modelled by the UTC offset (in minutes) it assigns to the
  instant in question, which is all `determine_sleep_date` inspects.
-/

namespace LichenApp

/-! ## Daily steps aggregation (`HealthDataProcessor._upsert_daily_steps`) -/

/-- One processed step interval, as built by `process_step_data`
(`interval_uuid = sample['uuid']`, `step_count = int(sample['value'])`). -/
structure StepInterval where
  interval_uuid : String
  step_count : Int
  deriving DecidableEq, Repr

/-- The `daily_steps` row for one (user, local_date, source_name) key:
the columns `total_steps` and `step_intervals` that `_upsert_daily_steps`
reads and writes. -/
structure DailyStepsRow where
  total_steps : Int
  step_intervals : List String
  deriving DecidableEq, Repr

/-- `sum(interval['step_count'] for interval in intervals)`. -/
def sumSteps (intervals : List StepInterval) : Int :=
  (intervals.map (·.step_count)).sum

/-- `unique_new_uuids`: the uuids of the batch that are not already recorded
in the existing row (`[uuid for uuid in new_interval_uuids if uuid not in
existing_interval_uuids]`). -/
def uniqueNew (ex : DailyStepsRow) (intervals : List StepInterval) : List String :=
  (intervals.map (·.interval_uuid)).filter
    (fun u => decide (u ∉ ex.step_intervals))

/-- Embedding of `HealthDataProcessor._upsert_daily_steps` for a fixed
(user, local_date, source_name) key.  The state is the stored row for that
key (`none` when the select returns no row).  Mirrors the source:
no row → insert the group's sum and uuid list; row present → add only the
step counts of interval uuids not already recorded; all uuids recorded →
leave the row untouched. -/
def upsertDailySteps (existing : Option DailyStepsRow)
    (intervals : List StepInterval) : Option DailyStepsRow :=
  match existing with
  | some ex =>
    if uniqueNew ex intervals ≠ [] then
      let unique_new_steps :=
        sumSteps (intervals.filter
          (fun i => decide (i.interval_uuid ∈ uniqueNew ex intervals)))
      some { total_steps := ex.total_steps + unique_new_steps,
             step_intervals := ex.step_intervals ++ uniqueNew ex intervals }
    else
      some ex
  | none =>
    some { total_steps := sumSteps intervals,
           step_intervals := intervals.map (·.interval_uuid) }

/-- Folding `_upsert_daily_steps` over a sequence of step-interval batches,
starting from no stored row. -/
def replayDailySteps (batches : List (List StepInterval)) : Option DailyStepsRow :=
  batches.foldl upsertDailySteps none

/-- Concatenation of a list of batches. -/
def catLists : List (List α) → List α
  | [] => []
  | b :: bs => b ++ catLists bs

/-- The set of all distinct interval uuids ever seen across the batches. -/
def allIds (batches : List (List StepInterval)) : Finset String :=
  ((catLists batches).map (·.interval_uuid)).toFinset

/-- `total_steps` of an optional stored row (`0` when no row exists). -/
def rowTotal : Option DailyStepsRow → Int
  | none => 0
  | some r => r.total_steps

/-- The set of interval uuids recorded in an optional stored row. -/
def rowIds : Option DailyStepsRow → Finset String
  | none => ∅
  | some r => r.step_intervals.toFinset

/-- Structural invariant used for the recomputation equivalence: the stored
uuid list has no duplicates and `total_steps` is the sum of the per-uuid
step counts over it. -/
def RowInv (steps : String → Int) : Option DailyStepsRow → Prop
  | none => True
  | some r => r.step_intervals.Nodup ∧
      r.total_steps = r.step_intervals.toFinset.sum steps

/-- C2's invariant, decidably: `total_steps` equals the sum of the per-uuid
step counts over the stored `step_intervals` list (with multiplicity, the
list being exactly what the code stores). -/
def listInvB (steps : String → Int) : Option DailyStepsRow → Bool
  | none => true
  | some r => r.total_steps == (r.step_intervals.map steps).sum

/-! ## Deduplication and the upload round
(`src/HealthKitSync/backend/lambda_handler.py`) -/

/-- A raw sample as the upload handler sees it: the fields the
deduplication and archival-grouping logic reads.  `uuid = none` models a
sample with no `uuid` key; the code's `sample.get('uuid')` truthiness test
also treats an empty string as absent. -/
structure Sample where
  uuid : Option String
  sourceName : String
  deriving DecidableEq, Repr

/-- Python truthiness of `sample.get('uuid')`: `None` and `''` are falsy. -/
def truthyId : Option String → Bool
  | none => false
  | some u => u != ""

/-- Embedding of `filter_duplicate_samples`: returns the kept samples in
input order, the duplicate count, and the set of new uuids to merge into
the index.  A sample whose uuid is falsy is never a duplicate and
contributes no id. -/
def filter_duplicate_samples (samples : List Sample)
    (existing_uuids : Finset String) : List Sample × Nat × Finset String :=
  match samples with
  | [] => ([], 0, ∅)
  | s :: rest =>
    let r := filter_duplicate_samples rest existing_uuids
    match s.uuid with
    | some u =>
      if u ≠ "" ∧ u ∈ existing_uuids then (r.1, r.2.1 + 1, r.2.2)
      else (s :: r.1, r.2.1, if u ≠ "" then insert u r.2.2 else r.2.2)
    | none => (s :: r.1, r.2.1, r.2.2)

/-- Spec-side keep predicate: a sample is kept iff its uuid is missing
(absent, or empty — Python-falsy) or not in the existing id set. -/
def keptSpec (existing_uuids : Finset String) (s : Sample) : Bool :=
  match s.uuid with
  | some u => (u == "") || !(decide (u ∈ existing_uuids))
  | none => true

/-- The usable id a kept sample contributes to the new-id set
(`none` when the uuid is falsy). -/
def sampleNewId (s : Sample) : Option String :=
  match s.uuid with
  | some u => if u = "" then none else some u
  | none => none

/-- One step of the handler's nested `source → year-month → type`
defaultdict grouping, flattened to one composite key: append the sample to
its bucket, or open a new bucket.  The key derivation (clean source name,
year-month parse, type) never affects the uploaded-sample totals, so it is
a parameter. -/
def addToBucket {κ : Type} [DecidableEq κ] (key : Sample → κ) (s : Sample) :
    List (κ × List Sample) → List (κ × List Sample)
  | [] => [(key s, [s])]
  | (k₀, grp) :: rest =>
    if key s = k₀ then (k₀, grp ++ [s]) :: rest
    else (k₀, grp) :: addToBucket key s rest

/-- Grouping of the deduplicated batch into archival buckets. -/
def bucketize {κ : Type} [DecidableEq κ] (key : Sample → κ)
    (l : List Sample) : List (κ × List Sample) :=
  l.foldl (fun bs s => addToBucket key s bs) []

/-- `total_samples_uploaded`: the handler sums `len(type_samples)` over
every bucket it uploads. -/
def totalUploaded {κ : Type} [DecidableEq κ] (key : Sample → κ)
    (kept : List Sample) : Nat :=
  ((bucketize key kept).map (fun b => b.2.length)).sum

/-- The fields of the handler's success response that the claims mention,
plus the uuid-index state after the call. -/
structure IngestOutcome where
  statusCode : Nat
  new_samples_uploaded : Nat
  duplicate_samples_skipped : Nat
  files_created : Nat
  index : Finset String

/-- Embedding of one `lambda_handler` ingestion round after a successful
body parse and validation: dedup-filter against the loaded index;
early-return success with zero uploads when everything was a duplicate (the
index is not rewritten); otherwise upload each bucket and save the merged
uuid index. -/
def ingestRound {κ : Type} [DecidableEq κ] (key : Sample → κ)
    (index : Finset String) (samples : List Sample) : IngestOutcome :=
  let r := filter_duplicate_samples samples index
  if r.1 = [] then
    ⟨200, 0, r.2.1, 0, index⟩
  else
    ⟨200, totalUploaded key r.1, r.2.1, (bucketize key r.1).length,
      index ∪ r.2.2⟩

/-! ## Sleep date assignment and session clustering
(`HealthDataProcessor.determine_sleep_date`,
`group_sleep_entries_by_date_and_gaps`, `create_sleep_session_record`) -/

/-- Local wall-clock time of a UTC instant, in minutes since the epoch.
An IANA timezone is modelled by the UTC offset (in minutes) it assigns to
the instant, which is all the sleep-date logic inspects. -/
def localMinutes (utc offset : Int) : Int := utc + offset

/-- `local_dt.date()` as a day number (floor division, as Python's calendar
arithmetic behaves). -/
def localDate (utc offset : Int) : Int :=
  Int.ediv (localMinutes utc offset) 1440

/-- `local_dt.hour`. -/
def localHour (utc offset : Int) : Int :=
  Int.emod (Int.ediv (localMinutes utc offset) 60) 24

/-- Embedding of `determine_sleep_date`: if the local hour is before 15:00
the stage is assigned to the previous day, else to the local date. -/
def determine_sleep_date (utc offset : Int) : Int :=
  if localHour utc offset < 15 then localDate utc offset - 1
  else localDate utc offset

/-- A sleep-stage sample: start and end instants in seconds since the
epoch (UTC), the quantities the clustering code compares. -/
structure SleepStage where
  startDate : Int
  endDate : Int
  deriving DecidableEq, Repr

/-- `gap_hours <= 2.0`: the gap from the previous stage's end to the
current stage's start is at most 2 hours; the code divides the gap in
seconds by 3600 and compares with 2.0, which is exact, so the comparison
is stated in seconds. -/
def gapLe (a b : SleepStage) : Bool := b.startDate - a.endDate ≤ 7200

/-- `date_samples.sort(key=lambda x: x['startDate'])`. -/
def sortByStart (l : List SleepStage) : List SleepStage :=
  List.insertionSort (fun a b => a.startDate ≤ b.startDate) l

instance : IsTotal SleepStage (fun a b => a.startDate ≤ b.startDate) :=
  ⟨fun a b => Int.le_total a.startDate b.startDate⟩

instance : IsTrans SleepStage (fun a b => a.startDate ≤ b.startDate) :=
  ⟨fun _ _ _ hab hbc => le_trans hab hbc⟩

/-- The 2-hour-gap clustering pass of
`group_sleep_entries_by_date_and_gaps` over a date group already sorted by
start time: a new session starts exactly when the gap from the previous
stage's end to the current stage's start exceeds 2 hours. -/
def clusterByGap : List SleepStage → List (List SleepStage)
  | [] => []
  | [x] => [[x]]
  | x :: y :: rest =>
    match clusterByGap (y :: rest) with
    | [] => [[x]]
    | g :: gs => if gapLe x y then (x :: g) :: gs else [x] :: g :: gs

/-- The per-date-group pipeline: sort by start time, then cluster by gaps. -/
def sessionsOfGroup (l : List SleepStage) : List (List SleepStage) :=
  clusterByGap (sortByStart l)

/-- Two adjacent sessions are separated: the gap from the first session's
last stage to the second session's first stage exceeds 2 hours. -/
def Bdy (g h : List SleepStage) : Prop :=
  ∀ a b, g.getLast? = some a → h.head? = some b → gapLe a b = false

/-- `create_sleep_session_record`'s session bounds: sort the entries by
start time; `start_date` is the first entry's start and `end_date` is the
last entry's end — last in start-time order, not the maximal end. -/
def sessionBounds (entries : List SleepStage) : Option (Int × Int) :=
  match sortByStart entries with
  | [] => none
  | x :: xs =>
    some (x.startDate, ((x :: xs).getLast (List.cons_ne_nil x xs)).endDate)

/-- The maximum of the contained stages' end times. -/
def maxEndDate : List SleepStage → Option Int
  | [] => none
  | x :: xs => some (xs.foldl (fun m s => max m s.endDate) x.endDate)

/-! ## Request validation
(`lambda_handler` in `src/HealthKitSync/backend/lambda_handler.py` versus
`handle_health_data_upload` in `src/lambda/lambda_function.py`) -/

/-- A parsed request body; `none` models an absent key. -/
structure RequestBody where
  user_id : Option String
  samples : Option (List Sample)

/-- What the HealthKitSync upload handler does with a request, in the
quantities the error-handling claims mention: HTTP status, number of
archival objects written, whether the uuid index was rewritten, and the
resulting index state. -/
structure HKOutcome where
  statusCode : Nat
  archivalWrites : Nat
  indexSaved : Bool
  index : Finset String

/-- Embedding of the HealthKitSync `lambda_handler` control flow up to its
writes: no body, or a body missing `user_id` or `samples`, returns 400
before anything is written; otherwise the batch is dedup-filtered, the
all-duplicates case early-returns without writing, and the remaining case
uploads one object per bucket and saves the merged uuid index. -/
def lambda_handler {κ : Type} [DecidableEq κ] (key : Sample → κ)
    (index : Finset String) (event_body : Option RequestBody) : HKOutcome :=
  match event_body with
  | none => ⟨400, 0, false, index⟩
  | some body =>
    match body.user_id, body.samples with
    | some _, some samples =>
      let r := filter_duplicate_samples samples index
      if r.1 = [] then ⟨200, 0, false, index⟩
      else ⟨200, (bucketize key r.1).length, true, index ∪ r.2.2⟩
    | _, _ => ⟨400, 0, false, index⟩

/-- What `handle_health_data_upload` does with a request: HTTP status, the
user id actually used, the number of archival objects written, and whether
the domain processors ran (modelled with store credentials configured, in
which case the code runs them iff `samples` is non-empty). -/
structure MainOutcome where
  statusCode : Nat
  userId : String
  archivalWrites : Nat
  domainProcessed : Bool

/-- Embedding of `handle_health_data_upload`'s control flow: only a
missing body is answered with 400; a missing `user_id` defaults to
`'unknown_user'` and missing `samples` to `[]`, after which grouping,
archival upload and domain processing proceed.  When no archival bucket
was produced (`samples = []`), the success response's reference to the
loop-local `filename` raises, the handler's catch-all answers 500, and by
then nothing has been written; with at least one bucket the response is
200. -/
def handle_health_data_upload {κ : Type} [DecidableEq κ] (key : Sample → κ)
    (event_body : Option RequestBody) : MainOutcome :=
  match event_body with
  | none => ⟨400, "", 0, false⟩
  | some body =>
    let user_id := body.user_id.getD "unknown_user"
    let samples := body.samples.getD []
    if bucketize key samples = [] then
      ⟨500, user_id, 0, false⟩
    else
      ⟨200, user_id, (bucketize key samples).length, decide (samples ≠ [])⟩

/-! ## ECG processing (`HealthDataProcessor.process_ecg_data`) -/

/-- The field of an ECG sample the loop's control flow reads. -/
structure ECGSample where
  uuid : String
  deriving DecidableEq, Repr

/-- Result of the external ECG analysis collaborator. -/
structure ECGAnalysis where
  success : Bool
  rmssd : Int
  sdnn : Int

/-- Embedding of `process_ecg_data`'s loop with the external analysis
collaborator as a parameter, returning the `reading_uuid`s of the rows it
inserts.  On `success = false` the code executes `break`, ending the whole
loop: the failing sample produces no row and no later sample is visited. -/
def process_ecg_data (analyze : ECGSample → ECGAnalysis) :
    List ECGSample → List String
  | [] => []
  | s :: rest =>
    if (analyze s).success then
      s.uuid :: process_ecg_data analyze rest
    else
      []

/-- Modelled from the spec: "on failure, skip that sample only" — the
skip-and-continue variant of the ECG loop that the specification
describes. -/
def process_ecg_data_per_spec (analyze : ECGSample → ECGAnalysis) :
    List ECGSample → List String
  | [] => []
  | s :: rest =>
    if (analyze s).success then
      s.uuid :: process_ecg_data_per_spec analyze rest
    else
      process_ecg_data_per_spec analyze rest

/-! ### Lemmas about `upsertDailySteps` -/

lemma upsert_none (b : List StepInterval) :
    upsertDailySteps none b =
      some ⟨sumSteps b, b.map (·.interval_uuid)⟩ := rfl

lemma upsert_some (ex : DailyStepsRow) (b : List StepInterval) :
    upsertDailySteps (some ex) b =
      if uniqueNew ex b ≠ [] then
        some ⟨ex.total_steps +
                sumSteps (b.filter
                  (fun i => decide (i.interval_uuid ∈ uniqueNew ex b))),
              ex.step_intervals ++ uniqueNew ex b⟩
      else some ex := rfl

lemma mem_uniqueNew {ex : DailyStepsRow} {b : List StepInterval} {u : String} :
    u ∈ uniqueNew ex b ↔
      u ∈ b.map (·.interval_uuid) ∧ u ∉ ex.step_intervals := by
  simp [uniqueNew]

lemma map_filter_comm (f : α → β) (p : β → Bool) (l : List α) :
    (l.map f).filter p = (l.filter (fun a => p (f a))).map f := by
  induction l with
  | nil => rfl
  | cons x xs ih =>
    simp only [List.map_cons, List.filter_cons]
    cases h : p (f x) <;> simp [h, ih]

lemma sumSteps_eq_map_sum (steps : String → Int) (b : List StepInterval)
    (hc : ∀ i ∈ b, i.step_count = steps i.interval_uuid) :
    sumSteps b = ((b.map (·.interval_uuid)).map steps).sum := by
  unfold sumSteps
  rw [List.map_map]
  congr 1
  exact List.map_congr_left hc

/-- The `unique_new_steps` summed by the update branch equal the per-uuid
step counts summed over `unique_new_uuids` (with multiplicity). -/
lemma uniqueNew_steps_sum (steps : String → Int) (ex : DailyStepsRow)
    (b : List StepInterval)
    (hc : ∀ i ∈ b, i.step_count = steps i.interval_uuid) :
    sumSteps (b.filter (fun i => decide (i.interval_uuid ∈ uniqueNew ex b))) =
      ((uniqueNew ex b).map steps).sum := by
  have hcongr :
      b.filter (fun i => decide (i.interval_uuid ∈ uniqueNew ex b)) =
        b.filter (fun i => decide (i.interval_uuid ∉ ex.step_intervals)) := by
    apply List.filter_congr
    intro i hi
    have : i.interval_uuid ∈ uniqueNew ex b ↔
        i.interval_uuid ∉ ex.step_intervals := by
      rw [mem_uniqueNew]
      exact and_iff_right (List.mem_map_of_mem _ hi)
    simp [this]
  rw [hcongr, sumSteps_eq_map_sum steps _
        (fun i hi => hc i (List.mem_of_mem_filter hi)),
      ← map_filter_comm (·.interval_uuid)
        (fun u => decide (u ∉ ex.step_intervals)) b]
  rfl

lemma rowIds_upsert (s : Option DailyStepsRow) (b : List StepInterval) :
    rowIds (upsertDailySteps s b) =
      rowIds s ∪ (b.map (·.interval_uuid)).toFinset := by
  match s with
  | none => simp [upsert_none, rowIds]
  | some ex =>
    rw [upsert_some]
    by_cases h : uniqueNew ex b = []
    · rw [if_neg (by simp [h])]
      have hsub : (b.map (·.interval_uuid)).toFinset ⊆
          ex.step_intervals.toFinset := by
        intro u hu
        rw [List.mem_toFinset] at hu ⊢
        by_contra hne
        have hmem : u ∈ uniqueNew ex b := mem_uniqueNew.mpr ⟨hu, hne⟩
        simp [h] at hmem
      simp [rowIds, Finset.union_eq_left.mpr hsub]
    · rw [if_pos h]
      show (ex.step_intervals ++ uniqueNew ex b).toFinset = _
      rw [List.toFinset_append]
      ext u
      simp only [Finset.mem_union, List.mem_toFinset, mem_uniqueNew, rowIds]
      constructor
      · rintro (hu | ⟨hu, _⟩)
        · exact Or.inl hu
        · exact Or.inr hu
      · rintro (hu | hu)
        · exact Or.inl hu
        · by_cases hex : u ∈ ex.step_intervals
          · exact Or.inl hex
          · exact Or.inr ⟨hu, hex⟩

lemma RowInv_upsert (steps : String → Int) (s : Option DailyStepsRow)
    (b : List StepInterval) (hinv : RowInv steps s)
    (hnd : (b.map (·.interval_uuid)).Nodup)
    (hc : ∀ i ∈ b, i.step_count = steps i.interval_uuid) :
    RowInv steps (upsertDailySteps s b) := by
  match s with
  | none =>
    rw [upsert_none]
    exact ⟨hnd, by
      rw [List.sum_toFinset _ hnd, ← sumSteps_eq_map_sum steps b hc]⟩
  | some ex =>
    obtain ⟨hexnd, hexsum⟩ := hinv
    rw [upsert_some]
    by_cases h : uniqueNew ex b = []
    · rw [if_neg (by simp [h])]
      exact ⟨hexnd, hexsum⟩
    · rw [if_pos h]
      have hundup : (uniqueNew ex b).Nodup := hnd.filter _
      have hdisj : ∀ u ∈ uniqueNew ex b, u ∉ ex.step_intervals :=
        fun u hu => (mem_uniqueNew.mp hu).2
      constructor
      · rw [List.nodup_append]
        exact ⟨hexnd, hundup, fun u hu hu' => hdisj u hu' hu⟩
      · show ex.total_steps + _ = ((ex.step_intervals ++ uniqueNew ex b).toFinset).sum steps
        rw [List.toFinset_append, Finset.sum_union (by
          rw [Finset.disjoint_right]
          intro u hu
          rw [List.mem_toFinset] at hu ⊢
          exact hdisj u hu)]
        rw [hexsum, uniqueNew_steps_sum steps ex b hc,
          List.sum_toFinset _ hundup]

lemma rowIds_foldl (batches : List (List StepInterval))
    (s : Option DailyStepsRow) :
    rowIds (batches.foldl upsertDailySteps s) =
      rowIds s ∪ ((catLists batches).map (·.interval_uuid)).toFinset := by
  induction batches generalizing s with
  | nil => simp [catLists]
  | cons b bs ih =>
    rw [List.foldl_cons, ih, rowIds_upsert]
    simp [catLists, List.toFinset_append, Finset.union_assoc]

lemma RowInv_foldl (steps : String → Int) (batches : List (List StepInterval))
    (s : Option DailyStepsRow) (hs : RowInv steps s)
    (hnd : ∀ g ∈ batches, (g.map (·.interval_uuid)).Nodup)
    (hc : ∀ g ∈ batches, ∀ i ∈ g, i.step_count = steps i.interval_uuid) :
    RowInv steps (batches.foldl upsertDailySteps s) := by
  induction batches generalizing s with
  | nil => exact hs
  | cons b bs ih =>
    rw [List.foldl_cons]
    exact ih _
      (RowInv_upsert steps s b hs (hnd b (List.mem_cons_self b bs))
        (hc b (List.mem_cons_self b bs)))
      (fun g hg => hnd g (List.mem_cons_of_mem _ hg))
      (fun g hg => hc g (List.mem_cons_of_mem _ hg))

lemma rowTotal_of_inv (steps : String → Int) (s : Option DailyStepsRow)
    (h : RowInv steps s) : rowTotal s = (rowIds s).sum steps := by
  match s with
  | none => simp [rowTotal, rowIds]
  | some r => exact h.2

lemma uniqueNew_eq_nil_of_sub (ex : DailyStepsRow) (b : List StepInterval)
    (h : ∀ u ∈ b.map (·.interval_uuid), u ∈ ex.step_intervals) :
    uniqueNew ex b = [] := by
  rw [uniqueNew, List.filter_eq_nil_iff]
  intro u hu
  simp [h u hu]

/-- Re-applying a batch to a state that already absorbed it is a no-op. -/
lemma upsert_idem (s : Option DailyStepsRow) (b : List StepInterval) :
    upsertDailySteps (upsertDailySteps s b) b = upsertDailySteps s b := by
  match s with
  | none =>
    rw [upsert_none]
    have h : uniqueNew ⟨sumSteps b, b.map (·.interval_uuid)⟩ b = [] :=
      uniqueNew_eq_nil_of_sub _ _ (fun u hu => hu)
    rw [upsert_some, if_neg (by simp [h])]
  | some ex =>
    by_cases h : uniqueNew ex b = []
    · have e1 : upsertDailySteps (some ex) b = some ex := by
        rw [upsert_some, if_neg (by simp [h])]
      rw [e1, e1]
    · have e1 : upsertDailySteps (some ex) b =
          some ⟨ex.total_steps +
                  sumSteps (b.filter
                    (fun i => decide (i.interval_uuid ∈ uniqueNew ex b))),
                ex.step_intervals ++ uniqueNew ex b⟩ := by
        rw [upsert_some, if_pos h]
      have h2 : uniqueNew
          ⟨ex.total_steps +
              sumSteps (b.filter
                (fun i => decide (i.interval_uuid ∈ uniqueNew ex b))),
            ex.step_intervals ++ uniqueNew ex b⟩ b = [] := by
        apply uniqueNew_eq_nil_of_sub
        intro u hu
        rw [List.mem_append]
        by_cases hex : u ∈ ex.step_intervals
        · exact Or.inl hex
        · exact Or.inr (mem_uniqueNew.mpr ⟨hu, hex⟩)
      rw [e1, upsert_some, if_neg (by simp [h2])]

/-- Ingesting `B` into a row freshly created from `A` adds exactly
`Σ step_count B` when the two batches' uuids are disjoint. -/
lemma upsert_insert_then (A B : List StepInterval)
    (hd : ∀ u ∈ B.map (·.interval_uuid), u ∉ A.map (·.interval_uuid)) :
    rowTotal (upsertDailySteps (upsertDailySteps none A) B) =
      sumSteps A + sumSteps B := by
  rw [upsert_none]
  have hun : uniqueNew ⟨sumSteps A, A.map (·.interval_uuid)⟩ B =
      B.map (·.interval_uuid) := by
    rw [uniqueNew, List.filter_eq_self]
    intro u hu
    simp [hd u hu]
  by_cases hB : B = []
  · subst hB
    rw [upsert_some, if_neg (by simp [hun])]
    simp [rowTotal, sumSteps]
  · have hne : uniqueNew ⟨sumSteps A, A.map (·.interval_uuid)⟩ B ≠ [] := by
      rw [hun]
      simpa [List.map_eq_nil_iff] using hB
    rw [upsert_some, if_pos hne]
    have hfs : B.filter (fun i => decide (i.interval_uuid ∈
        uniqueNew ⟨sumSteps A, A.map (·.interval_uuid)⟩ B)) = B := by
      rw [List.filter_eq_self]
      intro i hi
      simp [hun]
      exact ⟨i, hi, rfl⟩
    rw [hfs]
    rfl

/-- C1 (amended): provided each batch's interval uuids are pairwise distinct
and each uuid always carries the same step count, folding the per-group
update of `_upsert_daily_steps` over any sequence of batches yields the same
`totalSteps` as a full recomputation from the set of all distinct interval
uuids ever seen; applying an identical batch a second time leaves the stored
row (hence `totalSteps`) unchanged; and for uuid-disjoint batches A and B the
final total is `Σ steps A + Σ steps B` in either ingestion order. -/
theorem daily_steps_upsert_algebra
    (steps : String → Int) (batches : List (List StepInterval))
    (s : Option DailyStepsRow) (b A B : List StepInterval)
    (hnd : ∀ g ∈ batches, (g.map (·.interval_uuid)).Nodup)
    (hc : ∀ g ∈ batches, ∀ i ∈ g, i.step_count = steps i.interval_uuid)
    (hd : ∀ u ∈ A.map (·.interval_uuid), u ∉ B.map (·.interval_uuid)) :
    rowTotal (replayDailySteps batches) = (allIds batches).sum steps
    ∧ upsertDailySteps (upsertDailySteps s b) b = upsertDailySteps s b
    ∧ rowTotal (upsertDailySteps (upsertDailySteps none A) B) =
        sumSteps A + sumSteps B
    ∧ rowTotal (upsertDailySteps (upsertDailySteps none B) A) =
        sumSteps A + sumSteps B := by
  refine ⟨?_, upsert_idem s b, ?_, ?_⟩
  · have hinv := RowInv_foldl steps batches none trivial hnd hc
    rw [replayDailySteps, rowTotal_of_inv steps _ hinv, rowIds_foldl]
    simp [rowIds, allIds]
  · exact upsert_insert_then A B (fun u hu hu' => hd u hu' hu)
  · rw [upsert_insert_then B A hd]
    exact add_comm _ _

/-- Closed instantiation of `daily_steps_upsert_algebra`:
batches {a:1, b:2} then {a:1, c:3}, re-applied batch {a:1}, disjoint
batches {a:1} and {c:3}. -/
theorem daily_steps_upsert_algebra_witness :
    rowTotal (replayDailySteps [[⟨"a",1⟩,⟨"b",2⟩],[⟨"a",1⟩,⟨"c",3⟩]]) =
      (allIds [[⟨"a",1⟩,⟨"b",2⟩],[⟨"a",1⟩,⟨"c",3⟩]]).sum
        (fun u => if u = "a" then (1:Int) else if u = "b" then 2 else 3)
    ∧ upsertDailySteps (upsertDailySteps none [⟨"a",1⟩]) [⟨"a",1⟩] =
        upsertDailySteps none [⟨"a",1⟩]
    ∧ rowTotal (upsertDailySteps (upsertDailySteps none [⟨"a",1⟩]) [⟨"c",3⟩]) =
        sumSteps [⟨"a",1⟩] + sumSteps [⟨"c",3⟩]
    ∧ rowTotal (upsertDailySteps (upsertDailySteps none [⟨"c",3⟩]) [⟨"a",1⟩]) =
        sumSteps [⟨"a",1⟩] + sumSteps [⟨"c",3⟩] :=
  daily_steps_upsert_algebra
    (fun u => if u = "a" then (1:Int) else if u = "b" then 2 else 3)
    [[⟨"a",1⟩,⟨"b",2⟩],[⟨"a",1⟩,⟨"c",3⟩]] none [⟨"a",1⟩] [⟨"a",1⟩] [⟨"c",3⟩]
    (by decide) (by decide) (by decide)

/-- C1 counterexample: a single batch that lists the same interval uuid
twice (same step count both times, so the per-uuid count is well defined)
is double-counted by the insert branch: the stored total is 200, while a
full recomputation from the set of distinct uuids ever seen gives 100. -/
theorem daily_steps_recompute_cx :
    rowTotal (replayDailySteps [[⟨"a",100⟩, ⟨"a",100⟩]]) = 200
    ∧ (allIds [[⟨"a",100⟩, ⟨"a",100⟩]]).sum (fun _ => (100:Int)) = 100
    ∧ (200:Int) ≠ 100
    ∧ ([[(⟨"a",100⟩ : StepInterval), ⟨"a",100⟩]].all
        (fun g => g.all (fun i => i.step_count == 100))) = true :=
  ⟨by decide, by decide, by decide, by decide⟩

/-- C2: after every write of `_upsert_daily_steps` — the insert branch and
the update branch alike — the stored row satisfies
`totalSteps = Σ step_count` over the uuids recorded in its `step_intervals`
list (summed with multiplicity, the list being exactly what the code
stores), for every input list of intervals, including lists in which the
same interval uuid occurs more than once.  `steps` is the per-uuid step
count the inputs agree with. -/
theorem daily_steps_total_invariant (steps : String → Int)
    (s : Option DailyStepsRow) (b : List StepInterval)
    (hc : ∀ i ∈ b, i.step_count = steps i.interval_uuid)
    (hs : listInvB steps s = true) :
    listInvB steps (upsertDailySteps s b) = true := by
  match s with
  | none =>
    rw [upsert_none]
    show (sumSteps b == ((b.map (·.interval_uuid)).map steps).sum) = true
    rw [beq_iff_eq]
    exact sumSteps_eq_map_sum steps b hc
  | some ex =>
    have hs' : ex.total_steps = (ex.step_intervals.map steps).sum := by
      simpa [listInvB, beq_iff_eq] using hs
    rw [upsert_some]
    by_cases h : uniqueNew ex b = []
    · rw [if_neg (by simp [h])]
      exact hs
    · rw [if_pos h]
      show ((ex.total_steps + _) == _) = true
      rw [beq_iff_eq, List.map_append, List.sum_append, hs',
        uniqueNew_steps_sum steps ex b hc]

/-- Closed instantiation of `daily_steps_total_invariant`: an existing row
`{total 3, intervals [x]}` updated with a batch that carries the uuid `y`
twice. -/
theorem daily_steps_total_invariant_witness :
    listInvB (fun u => if u = "x" then (3:Int) else 5)
      (upsertDailySteps (some ⟨3, ["x"]⟩) [⟨"y",5⟩, ⟨"y",5⟩]) = true :=
  daily_steps_total_invariant _ _ _ (by decide) (by decide)

/-! ### Lemmas about `filter_duplicate_samples` and the upload round -/

/-- `filter_duplicate_samples` computes: the order-preserving filter by the
keep predicate, the number of removed samples, and the set of usable ids of
the kept samples. -/
lemma fds_spec (samples : List Sample) (existing : Finset String) :
    filter_duplicate_samples samples existing =
      (samples.filter (keptSpec existing),
       (samples.filter (fun s => !keptSpec existing s)).length,
       ((samples.filter (keptSpec existing)).filterMap sampleNewId).toFinset) := by
  induction samples with
  | nil => rfl
  | cons s rest ih =>
    match hu : s.uuid with
    | some u =>
      by_cases h : u ≠ "" ∧ u ∈ existing
      · have hk : keptSpec existing s = false := by
          simp [keptSpec, hu, h.1, h.2]
        simp [filter_duplicate_samples, hu, if_pos h, ih,
          List.filter_cons, hk]
      · have hk : keptSpec existing s = true := by
          by_cases he : u = ""
          · simp [keptSpec, hu, he]
          · have hnm : u ∉ existing := fun hm => h ⟨he, hm⟩
            simp [keptSpec, hu, hnm]
        by_cases he : u = ""
        · have hid : sampleNewId s = none := by simp [sampleNewId, hu, he]
          simp [filter_duplicate_samples, hu, if_neg h, he, ih,
            List.filter_cons, hk, List.filterMap_cons, hid]
        · have hnm : u ∉ existing := fun hm => h ⟨he, hm⟩
          have hid : sampleNewId s = some u := by simp [sampleNewId, hu, he]
          simp [filter_duplicate_samples, hu, if_neg h, he, hnm, ih,
            List.filter_cons, hk, List.filterMap_cons, hid,
            List.toFinset_cons]
    | none =>
      have hk : keptSpec existing s = true := by simp [keptSpec, hu]
      have hid : sampleNewId s = none := by simp [sampleNewId, hu]
      simp [filter_duplicate_samples, hu, ih, List.filter_cons, hk,
        List.filterMap_cons, hid]

/-- C4: `filter_duplicate_samples` returns exactly the subsequence of
samples whose uuid is missing (absent or empty, i.e. Python-falsy) or not
in the existing id set, in input order; a duplicate count equal to the
number of removed samples, so kept + duplicates = total received; and the
set of usable uuids of the kept samples, to which an id-less sample
contributes nothing. -/
theorem filter_duplicates_exact (samples : List Sample)
    (existing : Finset String) :
    (filter_duplicate_samples samples existing).1 =
        samples.filter (keptSpec existing)
    ∧ (filter_duplicate_samples samples existing).2.1 =
        (samples.filter (fun s => !keptSpec existing s)).length
    ∧ (filter_duplicate_samples samples existing).1.length +
        (filter_duplicate_samples samples existing).2.1 = samples.length
    ∧ (filter_duplicate_samples samples existing).2.2 =
        ((samples.filter (keptSpec existing)).filterMap sampleNewId).toFinset := by
  have h := fds_spec samples existing
  refine ⟨by rw [h], by rw [h], ?_, by rw [h]⟩
  rw [h]
  exact (List.length_eq_length_filter_add (keptSpec existing)).symm

/-- C10: duplicate detection tests membership only against the identifier
set as it was before the call, never against the ids accumulated during the
pass: every occurrence of a sample whose uuid is absent from the existing
set is kept, with its full multiplicity in the batch. -/
theorem intra_batch_duplicates_kept (samples : List Sample)
    (existing : Finset String) (s : Sample) (u : String)
    (hu : s.uuid = some u) (hnew : u ∉ existing) (hs : s ∈ samples) :
    s ∈ (filter_duplicate_samples samples existing).1
    ∧ (filter_duplicate_samples samples existing).1.count s =
        samples.count s := by
  have hk : keptSpec existing s = true := by
    by_cases he : u = ""
    · simp [keptSpec, hu, he]
    · simp [keptSpec, hu, hnew]
  have h1 : (filter_duplicate_samples samples existing).1 =
      samples.filter (keptSpec existing) := by rw [fds_spec]
  constructor
  · rw [h1, List.mem_filter]
    exact ⟨hs, hk⟩
  · rw [h1]
    exact List.count_filter hk

/-- Closed instantiation of `intra_batch_duplicates_kept`: a batch holding
the same unseen uuid twice keeps both occurrences. -/
theorem intra_batch_duplicates_kept_witness :
    (⟨some "u", "w"⟩ : Sample) ∈
        (filter_duplicate_samples [⟨some "u", "w"⟩, ⟨some "u", "w"⟩] ∅).1
    ∧ (filter_duplicate_samples
          [(⟨some "u", "w"⟩ : Sample), ⟨some "u", "w"⟩] ∅).1.count
        ⟨some "u", "w"⟩ =
        [(⟨some "u", "w"⟩ : Sample), ⟨some "u", "w"⟩].count ⟨some "u", "w"⟩ :=
  intra_batch_duplicates_kept _ _ _ "u" rfl (by decide) (by decide)

lemma sumBuckets_addToBucket {κ : Type} [DecidableEq κ] (key : Sample → κ)
    (s : Sample) (bs : List (κ × List Sample)) :
    ((addToBucket key s bs).map (fun b => b.2.length)).sum =
      ((bs.map (fun b => b.2.length)).sum) + 1 := by
  induction bs with
  | nil => simp [addToBucket]
  | cons b rest ih =>
    obtain ⟨k₀, grp⟩ := b
    by_cases h : key s = k₀
    · simp [addToBucket, h]
      omega
    · simp [addToBucket, h, ih]
      omega

/-- Every kept sample lands in exactly one archival bucket, so the summed
bucket sizes reported as `total_samples_uploaded` equal the number of kept
samples. -/
lemma totalUploaded_eq_length {κ : Type} [DecidableEq κ] (key : Sample → κ)
    (kept : List Sample) : totalUploaded key kept = kept.length := by
  suffices h : ∀ (l : List Sample) (bs : List (κ × List Sample)),
      ((l.foldl (fun bs s => addToBucket key s bs) bs).map
          (fun b => b.2.length)).sum =
        ((bs.map (fun b => b.2.length)).sum) + l.length by
    simpa [totalUploaded, bucketize] using h kept []
  intro l
  induction l with
  | nil => simp
  | cons s rest ih =>
    intro bs
    rw [List.foldl_cons, ih, sumBuckets_addToBucket]
    simp only [List.length_cons]
    omega

/-- C3 (amended): when every sample of the batch bears a truthy uuid,
re-ingesting the batch — the second call reading the index state saved by
the first — reports `new_samples_uploaded = 0`. -/
theorem dedup_idempotent {κ : Type} [DecidableEq κ] (key : Sample → κ)
    (index : Finset String) (samples : List Sample)
    (h : ∀ s ∈ samples, truthyId s.uuid = true) :
    (ingestRound key ((ingestRound key index samples).index)
        samples).new_samples_uploaded = 0 := by
  set idx2 := (ingestRound key index samples).index with hidx2
  have hkept : (filter_duplicate_samples samples idx2).1 = [] := by
    have h1 : (filter_duplicate_samples samples idx2).1 =
        samples.filter (keptSpec idx2) := by rw [fds_spec]
    rw [h1, List.filter_eq_nil_iff]
    intro s hs
    obtain ⟨u, hu, hne⟩ : ∃ u, s.uuid = some u ∧ u ≠ "" := by
      have ht := h s hs
      match hsu : s.uuid with
      | none => rw [hsu] at ht; simp [truthyId] at ht
      | some u =>
        refine ⟨u, rfl, ?_⟩
        rw [hsu] at ht
        simpa [truthyId] using ht
    suffices hmem : u ∈ idx2 by simp [keptSpec, hu, hne, hmem]
    rw [hidx2]
    simp only [ingestRound]
    by_cases hfst : (filter_duplicate_samples samples index).1 = []
    · rw [if_pos hfst]
      have h2 : samples.filter (keptSpec index) = [] := by
        rw [← show (filter_duplicate_samples samples index).1 =
          samples.filter (keptSpec index) from by rw [fds_spec]]
        exact hfst
      have hkf : keptSpec index s = false := by
        by_contra hc
        have : s ∈ samples.filter (keptSpec index) :=
          List.mem_filter.mpr ⟨hs, by revert hc; cases keptSpec index s <;> simp⟩
        simp [h2] at this
      have : u ∈ index := by
        by_contra hni
        simp [keptSpec, hu, hne, hni] at hkf
      exact this
    · rw [if_neg hfst]
      show u ∈ index ∪ (filter_duplicate_samples samples index).2.2
      rw [Finset.mem_union]
      by_cases hin : u ∈ index
      · exact Or.inl hin
      · refine Or.inr ?_
        have h3 : (filter_duplicate_samples samples index).2.2 =
            ((samples.filter (keptSpec index)).filterMap sampleNewId).toFinset := by
          rw [fds_spec]
        rw [h3, List.mem_toFinset, List.mem_filterMap]
        refine ⟨s, List.mem_filter.mpr ⟨hs, by simp [keptSpec, hu, hne, hin]⟩, ?_⟩
        simp [sampleNewId, hu, hne]
  simp only [ingestRound]
  rw [if_pos hkept]

/-- Closed instantiation of `dedup_idempotent`: a one-sample batch with a
uuid, ingested twice from an empty index. -/
theorem dedup_idempotent_witness :
    (ingestRound (fun s => s.sourceName)
        ((ingestRound (fun s => s.sourceName) (∅ : Finset String)
            [⟨some "u1", "w"⟩]).index)
        [⟨some "u1", "w"⟩]).new_samples_uploaded = 0 :=
  dedup_idempotent _ _ _ (by decide)

/-- C3 counterexample: a batch whose only sample has no `uuid` is treated
as always-new, so the second ingestion of the identical batch re-uploads it
and reports `new_samples_uploaded = 1`, not `0`. -/
theorem dedup_idempotence_cx :
    (ingestRound (fun s => s.sourceName)
        ((ingestRound (fun s => s.sourceName) (∅ : Finset String)
            [⟨none, "w"⟩]).index)
        [⟨none, "w"⟩]).new_samples_uploaded = 1
    ∧ (ingestRound (fun s => s.sourceName)
        ((ingestRound (fun s => s.sourceName) (∅ : Finset String)
            [⟨none, "w"⟩]).index)
        [⟨none, "w"⟩]).new_samples_uploaded ≠ 0 :=
  ⟨by decide, by decide⟩

/-! ### Sleep date and clustering -/

/-- C5: `determine_sleep_date` returns the local date minus one day when
the local hour is before 15:00 and the local date itself otherwise; in
particular a stage starting at local 14:59 is assigned to the previous
sleep date and one starting at local 15:00 to the same date (shown on day
19738, once at UTC offset 0 and once through a −480-minute offset). -/
theorem sleep_date_cutoff (utc offset : Int) :
    (localHour utc offset < 15 →
      determine_sleep_date utc offset = localDate utc offset - 1)
    ∧ (15 ≤ localHour utc offset →
      determine_sleep_date utc offset = localDate utc offset)
    ∧ determine_sleep_date (19738 * 1440 + 14 * 60 + 59) 0 = 19737
    ∧ determine_sleep_date (19738 * 1440 + 15 * 60) 0 = 19738
    ∧ determine_sleep_date (19738 * 1440 + 22 * 60 + 59) (-480) = 19737
    ∧ determine_sleep_date (19738 * 1440 + 23 * 60) (-480) = 19738 := by
  refine ⟨fun h => ?_, fun h => ?_, by decide, by decide, by decide, by decide⟩
  · rw [determine_sleep_date, if_pos h]
  · rw [determine_sleep_date, if_neg (not_lt.mpr h)]

/-- Closed instantiation of `sleep_date_cutoff` on both sides of the
cutoff. -/
theorem sleep_date_cutoff_witness :
    determine_sleep_date 100 0 = localDate 100 0 - 1
    ∧ determine_sleep_date (16 * 60) 0 = localDate (16 * 60) 0 :=
  ⟨(sleep_date_cutoff 100 0).1 (by decide),
   (sleep_date_cutoff (16 * 60) 0).2.1 (by decide)⟩

lemma clusterByGap_cons (x : SleepStage) (l : List SleepStage) :
    ∃ t gs, clusterByGap (x :: l) = (x :: t) :: gs := by
  induction l generalizing x with
  | nil => exact ⟨[], [], rfl⟩
  | cons y rest ih =>
    obtain ⟨t, gs, h⟩ := ih y
    by_cases hg : gapLe x y = true
    · exact ⟨y :: t, gs, by simp only [clusterByGap, h]; rw [if_pos hg]⟩
    · exact ⟨[], (y :: t) :: gs, by simp only [clusterByGap, h]; rw [if_neg hg]⟩

lemma catLists_clusterByGap (l : List SleepStage) :
    catLists (clusterByGap l) = l := by
  induction l with
  | nil => rfl
  | cons x xs ih =>
    cases xs with
    | nil => rfl
    | cons y rest =>
      obtain ⟨t, gs, h⟩ := clusterByGap_cons y rest
      rw [h] at ih
      simp only [clusterByGap, h]
      by_cases hg : gapLe x y = true
      · rw [if_pos hg]
        simp only [catLists] at ih ⊢
        rw [List.cons_append, ih]
      · rw [if_neg hg]
        simp only [catLists] at ih ⊢
        rw [ih]
        rfl

lemma chain'_clusterByGap (l : List SleepStage) :
    ∀ g ∈ clusterByGap l, g ≠ [] ∧
      g.Chain' (fun a b => gapLe a b = true) := by
  induction l with
  | nil =>
    intro g hg
    simp [clusterByGap] at hg
  | cons x xs ih =>
    cases xs with
    | nil =>
      intro g hg
      simp only [clusterByGap, List.mem_singleton] at hg
      subst hg
      exact ⟨by simp, List.chain'_singleton x⟩
    | cons y rest =>
      obtain ⟨t, gs, h⟩ := clusterByGap_cons y rest
      intro g hg
      simp only [clusterByGap, h] at hg
      by_cases hgap : gapLe x y = true
      · rw [if_pos hgap] at hg
        rcases List.mem_cons.mp hg with rfl | hg'
        · have hyt := ih (y :: t) (by rw [h]; exact List.mem_cons_self _ _)
          exact ⟨by simp, List.chain'_cons.mpr ⟨hgap, hyt.2⟩⟩
        · exact ih g (by rw [h]; exact List.mem_cons_of_mem _ hg')
      · rw [if_neg hgap] at hg
        rcases List.mem_cons.mp hg with rfl | hg'
        · exact ⟨by simp, List.chain'_singleton x⟩
        · exact ih g (by rw [h]; exact hg')

lemma boundary_clusterByGap (l : List SleepStage) :
    (clusterByGap l).Chain' Bdy := by
  induction l with
  | nil => simp [clusterByGap]
  | cons x xs ih =>
    cases xs with
    | nil => simp [clusterByGap]
    | cons y rest =>
      obtain ⟨t, gs, h⟩ := clusterByGap_cons y rest
      rw [h] at ih
      simp only [clusterByGap, h]
      by_cases hgap : gapLe x y = true
      · rw [if_pos hgap]
        rcases List.chain'_cons'.mp ih with ⟨hhd, htl⟩
        refine List.chain'_cons'.mpr ⟨?_, htl⟩
        intro z hz a b ha hb
        refine hhd z hz a b ?_ hb
        rw [← ha, List.getLast?_cons_cons]
      · rw [if_neg hgap]
        refine List.chain'_cons.mpr ⟨?_, ih⟩
        intro a b ha hb
        simp only [List.getLast?_singleton, Option.some.injEq] at ha
        simp only [List.head?_cons, Option.some.injEq] at hb
        subst ha
        subst hb
        simpa using hgap

/-- C6: within a sleep-date group, after sorting ascending by start time,
the clustering splits the sorted list into non-empty contiguous sessions in
which every consecutive pair of stages has a gap of at most 2 hours, while
any two adjacent sessions are separated by a gap exceeding 2 hours — i.e.
consecutive stages share a session iff the gap from the previous stage's
end to the current stage's start is ≤ 2h; concretely a 1h59m gap merges two
stages into one session and a 2h01m gap splits them into two. -/
theorem sleep_gap_clustering (l : List SleepStage) :
    List.Sorted (fun a b => a.startDate ≤ b.startDate) (sortByStart l)
    ∧ (sortByStart l).Perm l
    ∧ catLists (sessionsOfGroup l) = sortByStart l
    ∧ (∀ g ∈ sessionsOfGroup l, g ≠ [] ∧
        g.Chain' (fun a b => gapLe a b = true))
    ∧ (sessionsOfGroup l).Chain' Bdy
    ∧ sessionsOfGroup [⟨0, 3600⟩, ⟨3600 + 7140, 3600 + 7140 + 60⟩] =
        [[⟨0, 3600⟩, ⟨3600 + 7140, 3600 + 7140 + 60⟩]]
    ∧ sessionsOfGroup [⟨0, 3600⟩, ⟨3600 + 7260, 3600 + 7260 + 60⟩] =
        [[⟨0, 3600⟩], [⟨3600 + 7260, 3600 + 7260 + 60⟩]] :=
  ⟨List.sorted_insertionSort _ l, List.perm_insertionSort _ l,
   catLists_clusterByGap (sortByStart l),
   chain'_clusterByGap (sortByStart l),
   boundary_clusterByGap (sortByStart l),
   by decide, by decide⟩

/-- Closed instantiation of `sleep_gap_clustering`. -/
theorem sleep_gap_clustering_witness :
    catLists (sessionsOfGroup [⟨0, 60⟩, ⟨100000, 100060⟩]) =
      sortByStart [⟨0, 60⟩, ⟨100000, 100060⟩] :=
  (sleep_gap_clustering [⟨0, 60⟩, ⟨100000, 100060⟩]).2.2.1

lemma sorted_le_getLast {l : List SleepStage}
    (hl : List.Sorted (fun a b => a.startDate ≤ b.startDate) l)
    (hne : l ≠ []) :
    ∀ a ∈ l, a.startDate ≤ (l.getLast hne).startDate := by
  induction l with
  | nil => exact absurd rfl hne
  | cons x xs ih =>
    intro a ha
    cases xs with
    | nil =>
      rw [List.mem_singleton] at ha
      subst ha
      exact le_refl _
    | cons y ys =>
      rw [List.getLast_cons (List.cons_ne_nil y ys)]
      rcases List.mem_cons.mp ha with rfl | ha'
      · have hx := (List.sorted_cons.mp hl).1
        exact hx _ (List.getLast_mem (List.cons_ne_nil y ys))
      · exact ih (List.sorted_cons.mp hl).2 (List.cons_ne_nil y ys) a ha'

/-- C7 counterexample: a session whose first stage spans past the end of
its last-by-start stage.  The code's `end_date` is 200, the endDate of the
last-by-start stage, while the maximum of the contained stages' end times
is 10000. -/
theorem session_bounds_cx :
    sessionBounds [⟨0, 10000⟩, ⟨100, 200⟩] = some (0, 200)
    ∧ maxEndDate [⟨0, 10000⟩, ⟨100, 200⟩] = some 10000
    ∧ (200 : Int) ≠ 10000 :=
  ⟨by decide, by decide, by decide⟩

/-- C7 (amended): for every non-empty entry list, `start_date` is the
minimum of the contained stages' start times — unconditionally — and
`end_date` is the endDate of a contained stage whose start time is
maximal; `end_date` equals the maximum of the stages' end times whenever
end times are ordered like start times (e.g. when no stage nests inside
another). -/
theorem session_bounds_amended (l : List SleepStage) (s e : Int)
    (h : sessionBounds l = some (s, e)) :
    (∀ x ∈ l, s ≤ x.startDate) ∧ (∃ x ∈ l, x.startDate = s)
    ∧ (∃ z ∈ l, z.endDate = e ∧ ∀ x ∈ l, x.startDate ≤ z.startDate)
    ∧ ((∀ a ∈ l, ∀ b ∈ l,
          a.startDate ≤ b.startDate → a.endDate ≤ b.endDate) →
        (∀ x ∈ l, x.endDate ≤ e) ∧ (∃ x ∈ l, x.endDate = e)) := by
  have hsorted : List.Sorted (fun a b => a.startDate ≤ b.startDate)
      (sortByStart l) := List.sorted_insertionSort _ l
  have hperm : (sortByStart l).Perm l := List.perm_insertionSort _ l
  match hs : sortByStart l with
  | [] =>
    rw [sessionBounds, hs] at h
    exact absurd h (by simp)
  | x :: xs =>
    rw [sessionBounds, hs] at h
    simp only [Option.some.injEq, Prod.mk.injEq] at h
    obtain ⟨hsx, hex⟩ := h
    rw [hs] at hsorted hperm
    have hmem : ∀ z, z ∈ l ↔ z ∈ x :: xs := fun z => (hperm.mem_iff).symm
    set z := (x :: xs).getLast (List.cons_ne_nil x xs) with hz
    have hzmem : z ∈ l := (hmem z).mpr (List.getLast_mem _)
    have hxmem : x ∈ l := (hmem x).mpr (List.mem_cons_self _ _)
    have hzmax : ∀ w ∈ l, w.startDate ≤ z.startDate := fun w hw =>
      sorted_le_getLast hsorted (List.cons_ne_nil x xs) w ((hmem w).mp hw)
    refine ⟨?_, ⟨x, hxmem, hsx⟩, ⟨z, hzmem, hex, hzmax⟩, fun hmono => ⟨?_, ⟨z, hzmem, hex⟩⟩⟩
    · intro w hw
      rw [← hsx]
      rcases List.mem_cons.mp ((hmem w).mp hw) with rfl | hw'
      · exact le_refl _
      · exact (List.sorted_cons.mp hsorted).1 _ hw'
    · intro w hw
      rw [← hex]
      exact hmono w hw z hzmem (hzmax w hw)

/-- Closed instantiation of `session_bounds_amended` on two overlapping but
non-nested stages. -/
theorem session_bounds_amended_witness :
    (∀ x ∈ [(⟨0, 100⟩ : SleepStage), ⟨50, 150⟩], (0:Int) ≤ x.startDate)
    ∧ (∃ x ∈ [(⟨0, 100⟩ : SleepStage), ⟨50, 150⟩], x.startDate = 0)
    ∧ (∃ z ∈ [(⟨0, 100⟩ : SleepStage), ⟨50, 150⟩], z.endDate = (150:Int) ∧
        ∀ x ∈ [(⟨0, 100⟩ : SleepStage), ⟨50, 150⟩],
          x.startDate ≤ z.startDate)
    ∧ ((∀ a ∈ [(⟨0, 100⟩ : SleepStage), ⟨50, 150⟩],
          ∀ b ∈ [(⟨0, 100⟩ : SleepStage), ⟨50, 150⟩],
          a.startDate ≤ b.startDate → a.endDate ≤ b.endDate) →
        (∀ x ∈ [(⟨0, 100⟩ : SleepStage), ⟨50, 150⟩], x.endDate ≤ (150:Int))
        ∧ (∃ x ∈ [(⟨0, 100⟩ : SleepStage), ⟨50, 150⟩], x.endDate = 150)) :=
  session_bounds_amended [⟨0, 100⟩, ⟨50, 150⟩] 0 150 (by decide)

/-! ### Validation and ECG -/

/-- C8 counterexample: a request whose body has `samples` but no
`user_id` is not rejected by `handle_health_data_upload` — it answers 200,
writes one archival object, runs domain processing, and attributes the data
to `'unknown_user'`. -/
theorem validation_defaults_cx :
    (handle_health_data_upload (fun s => s.sourceName)
        (some ⟨none, some [⟨some "u1", "w"⟩]⟩)).statusCode = 200
    ∧ (handle_health_data_upload (fun s => s.sourceName)
        (some ⟨none, some [⟨some "u1", "w"⟩]⟩)).archivalWrites = 1
    ∧ (handle_health_data_upload (fun s => s.sourceName)
        (some ⟨none, some [⟨some "u1", "w"⟩]⟩)).userId = "unknown_user"
    ∧ (handle_health_data_upload (fun s => s.sourceName)
        (some ⟨none, some [⟨some "u1", "w"⟩]⟩)).domainProcessed = true :=
  ⟨by decide, by decide, by decide, by decide⟩

/-- C8 (amended): the HealthKitSync `lambda_handler` rejects a request
missing `user_id` or `samples` with status 400 and no side effects — no
archival object, no uuid-index write, index unchanged (and this handler
writes no domain rows at all).  `handle_health_data_upload` rejects a
request missing `samples` with a 500 error response and no side effects
(the success response's reference to the loop-local `filename` raises when
no archival file was uploaded, before which nothing was written), but does
not reject one missing only `user_id`: it substitutes `'unknown_user'` and
proceeds (see the counterexample). -/
theorem validation_missing_fields {κ : Type} [DecidableEq κ]
    (key : Sample → κ) (index : Finset String) (body : RequestBody)
    (h : body.user_id = none ∨ body.samples = none) :
    lambda_handler key index (some body) = ⟨400, 0, false, index⟩
    ∧ (body.samples = none →
        handle_health_data_upload key (some body) =
          ⟨500, body.user_id.getD "unknown_user", 0, false⟩) := by
  constructor
  · obtain ⟨uid, smp⟩ := body
    cases uid <;> cases smp <;> simp_all [lambda_handler]
  · intro hs
    obtain ⟨uid, smp⟩ := body
    simp only at hs
    subst hs
    simp [handle_health_data_upload, bucketize]

/-- Closed instantiation of `validation_missing_fields`: a body missing
both fields. -/
theorem validation_missing_fields_witness :
    lambda_handler (fun s => s.sourceName) (∅ : Finset String)
        (some ⟨none, none⟩) = ⟨400, 0, false, ∅⟩
    ∧ ((none : Option (List Sample)) = none →
        handle_health_data_upload (fun s => s.sourceName)
          (some ⟨none, none⟩) = ⟨500, "unknown_user", 0, false⟩) :=
  validation_missing_fields _ _ _ (Or.inl rfl)

/-- C9 at the failing input: the external analysis reports
`success = false` on the first of two ECG samples; the code's `break`
yields no row at all — the well-formed second sample is dropped — while
the spec's skip-that-sample-only behaviour yields exactly the second
sample's row. -/
theorem ecg_break_drops_rest :
    process_ecg_data
        (fun s => if s.uuid = "e1" then ⟨false, 0, 0⟩ else ⟨true, 30, 40⟩)
        [⟨"e1"⟩, ⟨"e2"⟩] = []
    ∧ process_ecg_data_per_spec
        (fun s => if s.uuid = "e1" then ⟨false, 0, 0⟩ else ⟨true, 30, 40⟩)
        [⟨"e1"⟩, ⟨"e2"⟩] = ["e2"]
    ∧ ([] : List String) ≠ ["e2"] :=
  ⟨by decide, by decide, by decide⟩

end LichenApp
